import Mathlib

/-!
Shallow embedding of the annotation-grounded matching and trial-evaluation
core of `video699/video/annotated.py`: the match resolver
(`AnnotatedSampledVideoScreen.matching_pages`), the ground-truth screen
filter (`AnnotatedSampledVideoScreenDetector.detect`), and the streaming
trial evaluator (`evaluate_event_detector`).

Ground-truth data (videos, frames, screens, keyrefs, the video-wide page
index) is modelled as immutable Lean structures.  Pages are identified by
their video-wide unique key.  Detector events are modelled from the spec
(the event classes live outside the embedded source file): each carries a
screen identity, an anchoring frame number, and, for appearance and
content-change events, a nullable believed page.

Fallible operations (a keyref whose page key is missing from the video-wide
page index, deleting an absent belief-state key, the counter assertion)
return `Except EvalError`.  The evaluator additionally records a trace of
actions (one trial per annotated frame, one belief-state update per event,
including the synthetic end-of-stream marker) so that ordering and
frame-effect properties can be stated.
-/

namespace Video699

/-- Condition tag of an annotated screen (`_ScreenAnnotations.condition`). -/
inductive Condition where
  | pristine
  | windowed
  | obstacle
deriving DecidableEq, Repr

/-- Similarity tag of a keyref (`_KeyRefAnnotations.similarity`). -/
inductive Similarity where
  | full
  | incremental
deriving DecidableEq, Repr

/-- A document page, identified by its page key, which is unique across all
documents of a video (`AnnotatedSampledVideoDocumentPage.key`). -/
structure Page where
  key : String
deriving DecidableEq, Repr

/-- A keyref: a directed edge from a screen to a page key with a similarity
tag (`_KeyRefAnnotations`). -/
structure KeyRef where
  key : String
  similarity : Similarity
deriving DecidableEq, Repr

/-- An annotated screen of a frame: condition, keyrefs in insertion order
(`_ScreenAnnotations.keyrefs.values()`), and the beyond-bounds flag
consulted by `AnnotatedSampledVideoScreenDetector.detect`. -/
structure Screen where
  condition : Condition
  keyrefs : List KeyRef
  isBeyondBounds : Bool
deriving DecidableEq, Repr

/-- An annotated frame: its one-based frame number and its screens in
stored index order (`SCREENS[video.uri][frame.number]`). -/
structure Frame where
  number : Nat
  screens : List Screen
deriving DecidableEq, Repr

/-- An annotated video: its frame sequence (`AnnotatedSampledVideo._frames`)
and the video-wide page index `PAGES[video.uri]` mapping page keys to
pages. -/
structure Video where
  frames : List Frame
  pages : List (String × Page)
deriving Repr

/-- Detector events, modelled from the spec: each carries a screen
identity, the number of its anchoring source frame (`event.frame.number`),
and, for appearance and content-change events, a nullable believed page. -/
inductive ScreenEvent where
  | appeared (screenId : String) (frameNumber : Nat) (page : Option Page)
  | changedContent (screenId : String) (frameNumber : Nat) (page : Option Page)
  | disappeared (screenId : String) (frameNumber : Nat)
deriving DecidableEq, Repr

/-- Screen identity carried by an event (`event.screen_id`). -/
def ScreenEvent.sid : ScreenEvent → String
  | .appeared s _ _ => s
  | .changedContent s _ _ => s
  | .disappeared s _ => s

/-- Frame number anchoring an event (`event.frame.number`). -/
def ScreenEvent.anchor : ScreenEvent → Nat
  | .appeared _ n _ => n
  | .changedContent _ n _ => n
  | .disappeared _ n => n

/-- Failure modes of the embedded code: a keyref key missing from the
video-wide page index (Python `KeyError` in `pages[keyref.key]`), deleting
an absent belief-state key (Python `KeyError` in
`del detected_page_dict[event.screen_id]`), and the counter assertion
(`assert num_successes <= num_trials`). -/
inductive EvalError where
  | pageKeyError
  | screenKeyError
  | assertionFailed
deriving DecidableEq, Repr

/-- Lookup in the video-wide page index (Python dict `PAGES[video.uri]`). -/
def pagesLookup : List (String × Page) → String → Option Page
  | [], _ => none
  | (k, p) :: rest, key => if k = key then some p else pagesLookup rest key

/-- Resolves a list of keyrefs against the video-wide page index
(the comprehension `pages[keyref.key] for keyref in keyrefs`); an unknown
key is a data-integrity fault. -/
def resolveKeys (pages : List (String × Page)) : List KeyRef → Except EvalError (List Page)
  | [] => .ok []
  | kr :: rest =>
    match pagesLookup pages kr.key with
    | none => .error .pageKeyError
    | some p =>
      match resolveKeys pages rest with
      | .error e => .error e
      | .ok ps => .ok (p :: ps)

/-- Embeds `AnnotatedSampledVideoScreen.matching_pages`: the full matches,
the incremental matches, and the closest matches, where the closest matches
are the full matches if non-empty and the incremental matches otherwise. -/
def matching_pages (pages : List (String × Page)) (s : Screen) :
    Except EvalError (List Page × List Page × List Page) :=
  match resolveKeys pages (s.keyrefs.filter (fun kr => decide (kr.similarity = Similarity.full))) with
  | .error e => .error e
  | .ok full_matches =>
    match resolveKeys pages (s.keyrefs.filter (fun kr => decide (kr.similarity = Similarity.incremental))) with
    | .error e => .error e
    | .ok incremental_matches =>
      .ok (full_matches, incremental_matches,
        if full_matches.isEmpty then incremental_matches else full_matches)

/-- Embeds `AnnotatedSampledVideoScreenDetector.detect`: the screens of the
frame whose condition is admissible and which satisfy the beyond-bounds
check, in stored index order. -/
def detectScreens (conditions : List Condition) (beyondBounds : Bool) (f : Frame) : List Screen :=
  f.screens.filter (fun s => decide (s.condition ∈ conditions) && (beyondBounds || !s.isBeyondBounds))

/-- Belief state of the evaluator: the Python dict `detected_page_dict`
mapping a screen identity to the currently believed (nullable) page. -/
abbrev BeliefState := List (String × Option Page)

/-- Dict lookup in the belief state. -/
def bsLookup : BeliefState → String → Option (Option Page)
  | [], _ => none
  | (k, v) :: rest, sid => if k = sid then some v else bsLookup rest sid

/-- Dict assignment `detected_page_dict[screen_id] = page` (overwrite if the
key is present, append otherwise). -/
def bsSet : BeliefState → String → Option Page → BeliefState
  | [], sid, p => [(sid, p)]
  | (k, v) :: rest, sid, p =>
    if k = sid then (k, p) :: rest else (k, v) :: bsSet rest sid p

/-- Dict deletion `del detected_page_dict[screen_id]` of a present key. -/
def bsErase (D : BeliefState) (sid : String) : BeliefState :=
  D.filter (fun kv => decide (kv.1 ≠ sid))

/-- The set `set(detected_page_dict.values())` of distinct belief-state
values; a stored null believed page is an element of this set. -/
def detectedPagesOf (D : BeliefState) : Finset (Option Page) :=
  (D.map Prod.snd).toFinset

/-- The per-trial loop over the pristine screens of the frame: computes the
flag `detected_pages_match_every_screen` and accumulates the union
`pristine_matching_pages` of the closest-match sets. -/
def pristineFold (pages : List (String × Page)) (detected : Finset (Option Page)) :
    List Screen → Bool → Finset Page → Except EvalError (Bool × Finset Page)
  | [], matchEvery, acc => .ok (matchEvery, acc)
  | s :: rest, matchEvery, acc =>
    match matching_pages pages s with
    | .error e => .error e
    | .ok (_, _, closest_matches) =>
      pristineFold pages detected rest
        (if closest_matches.toFinset.Nonempty ∧
            detected ∩ closest_matches.toFinset.image some = ∅
          then false else matchEvery)
        (acc ∪ closest_matches.toFinset)

/-- One evaluation trial of the current belief state at one annotated frame
(the body of the inner loop of `evaluate_event_detector`); produces whether
the trial is successful. -/
def runTrial (pages : List (String × Page)) (D : BeliefState) (f : Frame) :
    Except EvalError Bool :=
  let detected_pages := detectedPagesOf D
  let pristine_screens := detectScreens [Condition.pristine] true f
  let nonpristine_screens := detectScreens [Condition.windowed, Condition.obstacle] true f
  match pristineFold pages detected_pages pristine_screens true ∅ with
  | .error e => .error e
  | .ok (detected_pages_match_every_screen, pristine_matching_pages) =>
    let detected_nonmatching_pages := detected_pages \ pristine_matching_pages.image some
    .ok (detected_pages_match_every_screen &&
      decide (detected_nonmatching_pages.card ≤ nonpristine_screens.length))

/-- The success-counter update: `num_successes += 1` followed by
`assert num_successes <= num_trials` on a successful trial. -/
def bumpSuccess (b : Bool) (s T : Nat) : Except EvalError Nat :=
  if b then (if s + 1 ≤ T then .ok (s + 1) else .error .assertionFailed) else .ok s

/-- The loop-break test of the inner frame loop:
`event is not None and frame.number >= event.frame.number`. -/
def breakCondition (eo : Option ScreenEvent) (f : Frame) : Bool :=
  match eo with
  | some e => decide (e.anchor ≤ f.number)
  | none => false

/-- One recorded action of an evaluation run: a trial of a frame under the
belief state current at that trial, or the belief-state update of one event
(`none` being the synthetic end-of-stream marker). -/
inductive TraceAction where
  | trialAct (D : BeliefState) (f : Frame) (success : Bool)
  | applyAct (eo : Option ScreenEvent)
deriving DecidableEq, Repr

/-- The inner loop of `evaluate_event_detector`: evaluates trials for the
frames due before the current event (all remaining frames when the event is
the end-of-stream marker) and returns the remaining frames, including the
peeked frame that caused the break, the updated success counter, and the
trace of trials. -/
def processFrames (pages : List (String × Page)) (eo : Option ScreenEvent) :
    List Frame → BeliefState → Nat → Nat →
    Except EvalError (List Frame × Nat × List TraceAction)
  | [], _, s, _ => .ok ([], s, [])
  | f :: rest, D, s, T =>
    if breakCondition eo f then .ok (f :: rest, s, [])
    else
      match runTrial pages D f with
      | .error e => .error e
      | .ok b =>
        match bumpSuccess b s T with
        | .error e => .error e
        | .ok s1 =>
          match processFrames pages eo rest D s1 T with
          | .error e => .error e
          | .ok (rem, s2, tr) => .ok (rem, s2, .trialAct D f b :: tr)

/-- The belief-state update applied once per event after the trials due
before it: assignment for appearance and content-change events, deletion
for disappearance events (a Python `KeyError` when the key is absent), and
no change for the end-of-stream marker. -/
def applyEvent (D : BeliefState) : Option ScreenEvent → Except EvalError BeliefState
  | some (.appeared sid _ p) => .ok (bsSet D sid p)
  | some (.changedContent sid _ p) => .ok (bsSet D sid p)
  | some (.disappeared sid _) =>
    match bsLookup D sid with
    | some _ => .ok (bsErase D sid)
    | none => .error .screenKeyError
  | none => .ok D

/-- The outer loop of `evaluate_event_detector` over the event sequence
(already extended by the end-of-stream marker): alternates the inner frame
loop with the belief-state update and returns the remaining frames, the
final belief state, the success counter, and the trace. -/
def evalEvents (pages : List (String × Page)) :
    List (Option ScreenEvent) → List Frame → BeliefState → Nat → Nat →
    Except EvalError (List Frame × BeliefState × Nat × List TraceAction)
  | [], frames, D, s, _ => .ok (frames, D, s, [])
  | eo :: rest, frames, D, s, T =>
    match processFrames pages eo frames D s T with
    | .error e => .error e
    | .ok (rem, s1, tr) =>
      match applyEvent D eo with
      | .error e => .error e
      | .ok D1 =>
        match evalEvents pages rest rem D1 s1 T with
        | .error e => .error e
        | .ok (rem2, D2, s2, tr2) => .ok (rem2, D2, s2, tr ++ .applyAct eo :: tr2)

/-- Embeds `evaluate_event_detector`, additionally returning the trace of
trials and belief-state updates: `num_trials` is the number of annotated
frames, the event stream is extended by the end-of-stream marker, and the
belief state starts empty. -/
def evaluateFull (video : Video) (events : List ScreenEvent) :
    Except EvalError (Nat × Nat × List TraceAction) :=
  let num_trials := video.frames.length
  match evalEvents video.pages (events.map some ++ [none]) video.frames [] 0 num_trials with
  | .error e => .error e
  | .ok (_, _, num_successes, tr) => .ok (num_successes, num_trials, tr)

/-- Embeds the result `(num_successes, num_trials)` of
`evaluate_event_detector`. -/
def evaluate_event_detector (video : Video) (events : List ScreenEvent) :
    Except EvalError (Nat × Nat) :=
  match evaluateFull video events with
  | .error e => .error e
  | .ok (s, t, _) => .ok (s, t)

/-- The frames trialed by a trace, in trial order. -/
def trialedOf (tr : List TraceAction) : List Frame :=
  tr.filterMap (fun a => match a with | .trialAct _ f _ => some f | _ => none)

/-- Whether a trace action is a belief-state update. -/
def isApply : TraceAction → Bool
  | .applyAct _ => true
  | _ => false

/-- Whether a trace action is a trial. -/
def isTrial : TraceAction → Bool
  | .trialAct _ _ _ => true
  | _ => false

/-- Whether a trace action is a successful trial. -/
def isSuccessTrial : TraceAction → Bool
  | .trialAct _ _ b => b
  | _ => false

/-- Number of belief-state updates in a trace. -/
def countApplies (tr : List TraceAction) : Nat :=
  (tr.filter isApply).length

/-- Number of trials in a trace. -/
def trialCountOf (tr : List TraceAction) : Nat :=
  (tr.filter isTrial).length

/-- Number of successful trials in a trace. -/
def successCountOf (tr : List TraceAction) : Nat :=
  (tr.filter isSuccessTrial).length

/-- The set of distinct non-null pages among the belief-state values; this
is the detected-pages set as the spec words it (a stored null believed page
is excluded). -/
def detectedPagesNonNull (D : BeliefState) : Finset Page :=
  ((D.map Prod.snd).filterMap id).toFinset

/-- The closest-match set of a screen, as a finite set of pages (empty when
the match computation fails on a missing page key). -/
def closestOf (pages : List (String × Page)) (s : Screen) : Finset Page :=
  match matching_pages pages s with
  | .ok (_, _, cm) => cm.toFinset
  | .error _ => ∅

/-- The union of the closest-match sets of the pristine screens of a frame
(the accumulated `pristine_matching_pages`). -/
def pristineClosestUnion (pages : List (String × Page)) (f : Frame) : Finset Page :=
  (detectScreens [Condition.pristine] true f).foldl (fun acc s => acc ∪ closestOf pages s) ∅

/-- The success condition exactly as the claim words it: every pristine
screen with a non-empty closest-match set is corroborated by the set of
(non-null) pages among the belief-state values, and the number of detected
pages outside the union of the pristine closest-match sets is at most the
number of non-pristine screens. -/
def claimedTrialSuccess (pages : List (String × Page)) (D : BeliefState) (f : Frame) : Prop :=
  (∀ s ∈ detectScreens [Condition.pristine] true f,
    (closestOf pages s).Nonempty → (detectedPagesNonNull D ∩ closestOf pages s).Nonempty)
  ∧ (detectedPagesNonNull D \ pristineClosestUnion pages f).card
      ≤ (detectScreens [Condition.windowed, Condition.obstacle] true f).length

/-- The success condition the code implements: as the claim words it,
except that the detected set is the set of distinct belief-state values
with a stored null believed page included. -/
def amendedTrialSuccess (pages : List (String × Page)) (D : BeliefState) (f : Frame) : Prop :=
  (∀ s ∈ detectScreens [Condition.pristine] true f,
    (closestOf pages s).Nonempty → (detectedPagesOf D ∩ (closestOf pages s).image some).Nonempty)
  ∧ (detectedPagesOf D \ (pristineClosestUnion pages f).image some).card
      ≤ (detectScreens [Condition.windowed, Condition.obstacle] true f).length

/-- Fixture: a two-page video-wide page index. -/
def pgs1 : List (String × Page) := [("p1", Page.mk "p1"), ("p2", Page.mk "p2")]

/-- Fixture: a pristine screen with one full and one incremental keyref. -/
def screenFullIncr : Screen :=
  ⟨Condition.pristine, [⟨"p1", Similarity.full⟩, ⟨"p2", Similarity.incremental⟩], false⟩

/-- Fixture: a pristine screen with one full keyref. -/
def screenP1 : Screen := ⟨Condition.pristine, [⟨"p1", Similarity.full⟩], false⟩

/-- Fixture: an annotated frame with no screens. -/
def emptyFrame1 : Frame := ⟨1, []⟩

/-- Fixture: an annotated frame holding the one-full-keyref screen. -/
def frameP1 : Frame := ⟨1, [screenP1]⟩

/-- Fixture: a video with a single screen-less frame and no pages. -/
def videoOneEmptyFrame : Video := ⟨[emptyFrame1], []⟩

/-- Fixture: a video with two screen-less frames. -/
def videoTwoEmptyFrames : Video := ⟨[⟨1, []⟩, ⟨2, []⟩], pgs1⟩

/-- Fixture: an appearance event carrying a null believed page. -/
def eventAppearNull : ScreenEvent := .appeared "s" 1 none

/-- Fixture: an appearance event for page p1 anchored at frame 2. -/
def eventAppearP1At2 : ScreenEvent := .appeared "s" 2 (some (Page.mk "p1"))

@[simp]
theorem trialedOf_nil : trialedOf [] = [] := rfl

@[simp]
theorem trialedOf_cons_trial (D : BeliefState) (f : Frame) (b : Bool) (tr : List TraceAction) :
    trialedOf (.trialAct D f b :: tr) = f :: trialedOf tr := rfl

@[simp]
theorem trialedOf_cons_apply (eo : Option ScreenEvent) (tr : List TraceAction) :
    trialedOf (.applyAct eo :: tr) = trialedOf tr := rfl

@[simp]
theorem trialedOf_append (l1 l2 : List TraceAction) :
    trialedOf (l1 ++ l2) = trialedOf l1 ++ trialedOf l2 :=
  List.filterMap_append l1 l2 _

@[simp]
theorem successCountOf_nil : successCountOf [] = 0 := rfl

theorem successCountOf_cons (a : TraceAction) (l : List TraceAction) :
    successCountOf (a :: l) = (if isSuccessTrial a then 1 else 0) + successCountOf l := by
  simp only [successCountOf, List.filter_cons]
  split <;> simp [Nat.add_comm]

@[simp]
theorem trialCountOf_nil : trialCountOf [] = 0 := rfl

theorem trialCountOf_cons (a : TraceAction) (l : List TraceAction) :
    trialCountOf (a :: l) = (if isTrial a then 1 else 0) + trialCountOf l := by
  simp only [trialCountOf, List.filter_cons]
  split <;> simp [Nat.add_comm]

@[simp]
theorem countApplies_nil : countApplies [] = 0 := rfl

theorem countApplies_cons (a : TraceAction) (l : List TraceAction) :
    countApplies (a :: l) = (if isApply a then 1 else 0) + countApplies l := by
  simp only [countApplies, List.filter_cons]
  split <;> simp [Nat.add_comm]

@[simp]
theorem countApplies_append (l1 l2 : List TraceAction) :
    countApplies (l1 ++ l2) = countApplies l1 + countApplies l2 := by
  simp [countApplies, List.filter_append]

@[simp]
theorem successCountOf_append (l1 l2 : List TraceAction) :
    successCountOf (l1 ++ l2) = successCountOf l1 + successCountOf l2 := by
  simp [successCountOf, List.filter_append]

@[simp]
theorem trialCountOf_append (l1 l2 : List TraceAction) :
    trialCountOf (l1 ++ l2) = trialCountOf l1 + trialCountOf l2 := by
  simp [trialCountOf, List.filter_append]

theorem bumpSuccess_ok {b : Bool} {s T s1 : Nat} (h : bumpSuccess b s T = .ok s1) :
    s1 = s + (if b then 1 else 0) := by
  unfold bumpSuccess at h
  split at h
  case isTrue hb =>
    split at h
    · simp only [Except.ok.injEq] at h
      simp [hb, ← h]
    · simp at h
  case isFalse hb =>
    simp only [Except.ok.injEq] at h
    simp [hb, ← h]

theorem resolveKeys_error (pages : List (String × Page)) :
    ∀ krs e, resolveKeys pages krs = .error e → e = .pageKeyError := by
  intro krs
  induction krs with
  | nil => intro e h; simp [resolveKeys] at h
  | cons kr rest ih =>
    intro e h
    simp only [resolveKeys] at h
    split at h
    · simp only [Except.error.injEq] at h; exact h.symm
    · split at h
      case h_1 e2 heq =>
        simp only [Except.error.injEq] at h
        exact h ▸ ih e2 heq
      · simp at h

theorem matching_pages_error {pages : List (String × Page)} {s : Screen} {e : EvalError}
    (h : matching_pages pages s = .error e) : e = .pageKeyError := by
  simp only [matching_pages] at h
  split at h
  case h_1 e2 heq =>
    simp only [Except.error.injEq] at h
    exact h ▸ resolveKeys_error pages _ e2 heq
  case h_2 =>
    split at h
    case h_1 e2 heq =>
      simp only [Except.error.injEq] at h
      exact h ▸ resolveKeys_error pages _ e2 heq
    case h_2 => simp at h

theorem pristineFold_error (pages : List (String × Page)) (detected : Finset (Option Page)) :
    ∀ screens me acc e, pristineFold pages detected screens me acc = .error e →
    e = .pageKeyError := by
  intro screens
  induction screens with
  | nil => intro me acc e h; simp [pristineFold] at h
  | cons s rest ih =>
    intro me acc e h
    simp only [pristineFold] at h
    split at h
    case h_1 e2 heq =>
      simp only [Except.error.injEq] at h
      exact h ▸ matching_pages_error heq
    case h_2 => exact ih _ _ e h

theorem runTrial_error {pages : List (String × Page)} {D : BeliefState} {f : Frame}
    {e : EvalError} (h : runTrial pages D f = .error e) : e = .pageKeyError := by
  simp only [runTrial] at h
  split at h
  case h_1 e2 heq =>
    simp only [Except.error.injEq] at h
    exact h ▸ pristineFold_error _ _ _ _ _ e2 heq
  case h_2 => simp at h

theorem applyEvent_error {D : BeliefState} {eo : Option ScreenEvent} {e : EvalError}
    (h : applyEvent D eo = .error e) : e = .screenKeyError := by
  cases eo with
  | none => simp [applyEvent] at h
  | some ev =>
    cases ev with
    | appeared sid n p => simp [applyEvent] at h
    | changedContent sid n p => simp [applyEvent] at h
    | disappeared sid n =>
      simp only [applyEvent] at h
      split at h
      · simp at h
      · simp only [Except.error.injEq] at h; exact h.symm

theorem processFrames_cons_break {pages : List (String × Page)} {eo : Option ScreenEvent}
    {f : Frame} {rest : List Frame} {D : BeliefState} {s T : Nat}
    (hb : breakCondition eo f = true) :
    processFrames pages eo (f :: rest) D s T = .ok (f :: rest, s, []) := by
  simp [processFrames, hb]

theorem processFrames_cons_step {pages : List (String × Page)} {eo : Option ScreenEvent}
    {f : Frame} {rest : List Frame} {D : BeliefState} {s T : Nat} {b : Bool} {s1 : Nat}
    (hb : breakCondition eo f = false) (hrt : runTrial pages D f = .ok b)
    (hbump : bumpSuccess b s T = .ok s1) :
    processFrames pages eo (f :: rest) D s T =
      match processFrames pages eo rest D s1 T with
      | .error e => .error e
      | .ok (rem, s2, tr) => .ok (rem, s2, .trialAct D f b :: tr) := by
  simp [processFrames, hb, hrt, hbump]

theorem bumpSuccess_progress (b : Bool) {s T : Nat} (h : s + 1 ≤ T) :
    ∃ s1, bumpSuccess b s T = .ok s1 ∧ s1 ≤ s + 1 := by
  cases b with
  | false => exact ⟨s, by simp [bumpSuccess], by omega⟩
  | true => exact ⟨s + 1, by simp [bumpSuccess, h], by omega⟩

/-- The assertion in the success branch never fires: under the counter
invariant, the inner frame loop never returns the assertion failure, and it
preserves the invariant that the success counter plus the number of frames
still to be trialed is at most the trial total. -/
theorem processFrames_bound (pages : List (String × Page)) (eo : Option ScreenEvent) :
    ∀ (frames : List Frame) (D : BeliefState) (s T : Nat), frames.length + s ≤ T →
    processFrames pages eo frames D s T ≠ .error .assertionFailed
    ∧ (∀ rem s2 tr, processFrames pages eo frames D s T = .ok (rem, s2, tr) →
        rem.length + s2 ≤ T) := by
  intro frames
  induction frames with
  | nil =>
    intro D s T hT
    constructor
    · simp [processFrames]
    · intro rem s2 tr h
      simp only [processFrames, Except.ok.injEq, Prod.mk.injEq] at h
      obtain ⟨h1, h2, h3⟩ := h
      subst h1 h2
      simpa using hT
  | cons f rest ih =>
    intro D s T hT
    have hT1 : rest.length + 1 + s ≤ T := by simpa [List.length_cons] using hT
    by_cases hb : breakCondition eo f = true
    · rw [processFrames_cons_break hb]
      constructor
      · simp
      · intro rem s2 tr h
        simp only [Except.ok.injEq, Prod.mk.injEq] at h
        obtain ⟨h1, h2, h3⟩ := h
        subst h1 h2
        simpa [List.length_cons] using hT
    · have hb' : breakCondition eo f = false := by simpa using hb
      cases hrt : runTrial pages D f with
      | error e =>
        have he := runTrial_error hrt
        subst he
        constructor
        · simp [processFrames, hb', hrt]
        · intro rem s2 tr h
          simp [processFrames, hb', hrt] at h
      | ok b =>
        obtain ⟨s1, hbump, hs1⟩ := bumpSuccess_progress b (s := s) (T := T) (by omega)
        have hrest : rest.length + s1 ≤ T := by omega
        obtain ⟨ihne, ihok⟩ := ih D s1 T hrest
        rw [processFrames_cons_step hb' hrt hbump]
        cases hrec : processFrames pages eo rest D s1 T with
        | error e2 =>
          constructor
          · simpa using fun hc => ihne (hrec.trans (congrArg Except.error hc))
          · intro rem s2 tr h
            simp at h
        | ok res =>
          obtain ⟨rem1, s21, tr1⟩ := res
          constructor
          · simp
          · intro rem s2 tr h
            simp only [Except.ok.injEq, Prod.mk.injEq] at h
            obtain ⟨h1, h2, h3⟩ := h
            subst h1 h2
            exact ihok rem1 s21 tr1 hrec

/-- Master characterization of the inner frame loop on success: frame
conservation, the recorded belief state and the anchor bound of every
trial, absence of update actions, the success-counter delta, complete
consumption under the end-of-stream marker, and the break condition at the
head of the remaining frames. -/
theorem processFrames_spec (pages : List (String × Page)) (eo : Option ScreenEvent) :
    ∀ (frames : List Frame) (D : BeliefState) (s T : Nat) (rem : List Frame) (s2 : Nat)
      (tr : List TraceAction),
    processFrames pages eo frames D s T = .ok (rem, s2, tr) →
    trialedOf tr ++ rem = frames
    ∧ (∀ D0 f b, TraceAction.trialAct D0 f b ∈ tr →
        D0 = D ∧ ∀ e, eo = some e → f.number < e.anchor)
    ∧ (∀ a ∈ tr, isApply a = false)
    ∧ s2 = s + successCountOf tr
    ∧ (eo = none → rem = [])
    ∧ (∀ f, rem.head? = some f → breakCondition eo f = true) := by
  intro frames
  induction frames with
  | nil =>
    intro D s T rem s2 tr h
    simp only [processFrames, Except.ok.injEq, Prod.mk.injEq] at h
    obtain ⟨h1, h2, h3⟩ := h
    subst h1 h2 h3
    simp
  | cons f rest ih =>
    intro D s T rem s2 tr h
    simp only [processFrames] at h
    split at h
    case isTrue hb =>
      simp only [Except.ok.injEq, Prod.mk.injEq] at h
      obtain ⟨h1, h2, h3⟩ := h
      subst h1 h2 h3
      refine ⟨by simp, by simp, by simp, by simp, ?_, ?_⟩
      · intro he; subst he; simp [breakCondition] at hb
      · intro g hg
        simp only [List.head?_cons, Option.some.injEq] at hg
        subst hg; exact hb
    case isFalse hb =>
      split at h
      case h_1 => simp at h
      case h_2 b hrt =>
        split at h
        case h_1 => simp at h
        case h_2 s1 hbump =>
          split at h
          case h_1 => simp at h
          case h_2 rem1 s21 tr1 hrec =>
            simp only [Except.ok.injEq, Prod.mk.injEq] at h
            obtain ⟨h1, h2, h3⟩ := h
            subst h1 h2 h3
            obtain ⟨ih1, ih2, ih3, ih4, ih5, ih6⟩ := ih D s1 T rem1 s21 tr1 hrec
            refine ⟨by simp [ih1], ?_, ?_, ?_, ih5, ih6⟩
            · intro D0 g b0 hmem
              rcases List.mem_cons.mp hmem with hhead | htail
              · cases hhead
                refine ⟨rfl, ?_⟩
                intro e he; subst he
                simp only [breakCondition, decide_eq_true_eq] at hb
                omega
              · exact ih2 D0 g b0 htail
            · intro a ha
              rcases List.mem_cons.mp ha with hhead | htail
              · subst hhead; rfl
              · exact ih3 a htail
            · have hs1 := bumpSuccess_ok hbump
              rw [successCountOf_cons]
              simp only [isSuccessTrial]
              omega

theorem evalEvents_cons_step {pages : List (String × Page)} {eo : Option ScreenEvent}
    {rest : List (Option ScreenEvent)} {frames rem : List Frame} {D D1 : BeliefState}
    {s s1 T : Nat} {tr : List TraceAction}
    (hpf : processFrames pages eo frames D s T = .ok (rem, s1, tr))
    (hap : applyEvent D eo = .ok D1) :
    evalEvents pages (eo :: rest) frames D s T =
      match evalEvents pages rest rem D1 s1 T with
      | .error e => .error e
      | .ok (rem2, D2, s2, tr2) => .ok (rem2, D2, s2, tr ++ .applyAct eo :: tr2) := by
  simp [evalEvents, hpf, hap]

/-- Characterization of the outer event loop on success: frame conservation
and the success-counter delta. -/
theorem evalEvents_spec (pages : List (String × Page)) :
    ∀ (eos : List (Option ScreenEvent)) (frames : List Frame) (D : BeliefState) (s T : Nat)
      (rem2 : List Frame) (D2 : BeliefState) (s2 : Nat) (tr : List TraceAction),
    evalEvents pages eos frames D s T = .ok (rem2, D2, s2, tr) →
    trialedOf tr ++ rem2 = frames ∧ s2 = s + successCountOf tr := by
  intro eos
  induction eos with
  | nil =>
    intro frames D s T rem2 D2 s2 tr h
    simp only [evalEvents, Except.ok.injEq, Prod.mk.injEq] at h
    obtain ⟨h1, h2, h3, h4⟩ := h
    subst h1 h3 h4
    simp
  | cons eo rest ih =>
    intro frames D s T rem2 D2 s2 tr h
    simp only [evalEvents] at h
    split at h
    case h_1 => simp at h
    case h_2 rem s1 tr1 hpf =>
      split at h
      case h_1 => simp at h
      case h_2 D1 hap =>
        split at h
        case h_1 => simp at h
        case h_2 rem2a D2a s2a tr2 hrec =>
          simp only [Except.ok.injEq, Prod.mk.injEq] at h
          obtain ⟨h1, h2, h3, h4⟩ := h
          subst h1 h2 h3 h4
          obtain ⟨hc, hs⟩ := processFrames_spec pages eo frames D s T rem s1 tr1 hpf
          obtain ⟨ihc, ihs⟩ := ih rem D1 s1 T rem2a D2a s2a tr2 hrec
          have e2 : s1 = s + successCountOf tr1 := hs.2.2.1
          have e3 : successCountOf (tr1 ++ TraceAction.applyAct eo :: tr2) =
              successCountOf tr1 + successCountOf tr2 := by
            rw [successCountOf_append, successCountOf_cons]
            simp [isSuccessTrial]
          constructor
          · simp only [trialedOf_append, trialedOf_cons_apply, List.append_assoc]
            rw [ihc]
            exact hc
          · rw [e3]
            omega

/-- The outer event loop never returns the assertion failure under the
counter invariant, and preserves it. -/
theorem evalEvents_bound (pages : List (String × Page)) :
    ∀ (eos : List (Option ScreenEvent)) (frames : List Frame) (D : BeliefState) (s T : Nat),
    frames.length + s ≤ T →
    evalEvents pages eos frames D s T ≠ .error .assertionFailed
    ∧ (∀ rem2 D2 s2 tr, evalEvents pages eos frames D s T = .ok (rem2, D2, s2, tr) →
        rem2.length + s2 ≤ T) := by
  intro eos
  induction eos with
  | nil =>
    intro frames D s T hT
    constructor
    · simp [evalEvents]
    · intro rem2 D2 s2 tr h
      simp only [evalEvents, Except.ok.injEq, Prod.mk.injEq] at h
      obtain ⟨h1, h2, h3, h4⟩ := h
      subst h1 h3
      exact hT
  | cons eo rest ih =>
    intro frames D s T hT
    obtain ⟨hne, hok⟩ := processFrames_bound pages eo frames D s T hT
    cases hpf : processFrames pages eo frames D s T with
    | error e =>
      have : e ≠ .assertionFailed := fun hc => hne (hc ▸ hpf)
      constructor
      · simp only [evalEvents, hpf]
        intro hc
        simp only [Except.error.injEq] at hc
        exact this hc
      · intro rem2 D2 s2 tr h
        simp [evalEvents, hpf] at h
    | ok res =>
      obtain ⟨rem, s1, tr1⟩ := res
      have hinv : rem.length + s1 ≤ T := hok rem s1 tr1 hpf
      cases hap : applyEvent D eo with
      | error e =>
        have he := applyEvent_error hap
        subst he
        constructor
        · simp [evalEvents, hpf, hap]
        · intro rem2 D2 s2 tr h
          simp [evalEvents, hpf, hap] at h
      | ok D1 =>
        obtain ⟨ihne, ihok⟩ := ih rem D1 s1 T hinv
        rw [evalEvents_cons_step hpf hap]
        cases hrec : evalEvents pages rest rem D1 s1 T with
        | error e2 =>
          constructor
          · simpa using fun hc => ihne (hrec.trans (congrArg Except.error hc))
          · intro rem2 D2 s2 tr h
            simp at h
        | ok res2 =>
          obtain ⟨rem2a, D2a, s2a, tr2⟩ := res2
          constructor
          · simp
          · intro rem2 D2 s2 tr h
            simp only [Except.ok.injEq, Prod.mk.injEq] at h
            obtain ⟨h1, h2, h3, h4⟩ := h
            subst h1 h3
            exact ihok rem2a D2a s2a tr2 hrec

/-- Splitting the outer event loop at a concatenation point of the event
sequence. -/
theorem evalEvents_append (pages : List (String × Page)) :
    ∀ (l1 l2 : List (Option ScreenEvent)) (frames : List Frame) (D : BeliefState) (s T : Nat)
      (rem2 : List Frame) (D2 : BeliefState) (s2 : Nat) (tr : List TraceAction),
    evalEvents pages (l1 ++ l2) frames D s T = .ok (rem2, D2, s2, tr) →
    ∃ rem1 D1 s1 tr1 tr2,
      evalEvents pages l1 frames D s T = .ok (rem1, D1, s1, tr1)
      ∧ evalEvents pages l2 rem1 D1 s1 T = .ok (rem2, D2, s2, tr2)
      ∧ tr = tr1 ++ tr2 := by
  intro l1
  induction l1 with
  | nil =>
    intro l2 frames D s T rem2 D2 s2 tr h
    exact ⟨frames, D, s, [], tr, rfl, h, rfl⟩
  | cons eo rest ih =>
    intro l2 frames D s T rem2 D2 s2 tr h
    simp only [List.cons_append, evalEvents] at h
    split at h
    case h_1 => simp at h
    case h_2 rem s1 tr1 hpf =>
      split at h
      case h_1 => simp at h
      case h_2 D1 hap =>
        split at h
        case h_1 => simp at h
        case h_2 rem2a D2a s2a tr2all hrec =>
          simp only [Except.ok.injEq, Prod.mk.injEq] at h
          obtain ⟨h1, h2, h3, h4⟩ := h
          subst h1 h2 h3 h4
          obtain ⟨remm, Dm, sm, trA, trB, hA, hB, hAB⟩ :=
            ih l2 rem D1 s1 T rem2a D2a s2a tr2all hrec
          refine ⟨remm, Dm, sm, tr1 ++ .applyAct eo :: trA, trB, ?_, hB, ?_⟩
          · rw [evalEvents_cons_step hpf hap, hA]
          · rw [hAB]
            simp

/-- Projection of a successful full evaluation: the reported trial total is
the number of annotated frames and the run is a successful outer loop over
the marker-extended event sequence. -/
theorem evaluateFull_ok {video : Video} {events : List ScreenEvent} {s t : Nat}
    {tr : List TraceAction} (h : evaluateFull video events = .ok (s, t, tr)) :
    t = video.frames.length
    ∧ ∃ rem2 D2, evalEvents video.pages (events.map some ++ [none]) video.frames [] 0
        video.frames.length = .ok (rem2, D2, s, tr) := by
  simp only [evaluateFull] at h
  split at h
  case h_1 => simp at h
  case h_2 rem2 D2 s2 tr2 heq =>
    simp only [Except.ok.injEq, Prod.mk.injEq] at h
    obtain ⟨h1, h2, h3⟩ := h
    subst h1 h2 h3
    exact ⟨rfl, rem2, D2, heq⟩

theorem bsLookup_bsSet_ne :
    ∀ (D : BeliefState) (sid : String) (p : Option Page) (sid2 : String), sid2 ≠ sid →
    bsLookup (bsSet D sid p) sid2 = bsLookup D sid2 := by
  intro D
  induction D with
  | nil =>
    intro sid p sid2 hne
    simp only [bsSet, bsLookup]
    rw [if_neg (fun h => hne h.symm)]
  | cons kv rest ih =>
    intro sid p sid2 hne
    obtain ⟨k, v⟩ := kv
    by_cases hk : k = sid
    · subst hk
      simp only [bsSet, if_pos rfl, bsLookup]
      rw [if_neg (fun h => hne h.symm), if_neg (fun h => hne h.symm)]
    · simp only [bsSet, if_neg hk, bsLookup]
      by_cases hk2 : k = sid2
      · rw [if_pos hk2, if_pos hk2]
      · rw [if_neg hk2, if_neg hk2]
        exact ih sid p sid2 hne

theorem bsLookup_bsErase_ne :
    ∀ (D : BeliefState) (sid sid2 : String), sid2 ≠ sid →
    bsLookup (bsErase D sid) sid2 = bsLookup D sid2 := by
  intro D
  induction D with
  | nil => intro sid sid2 hne; rfl
  | cons kv rest ih =>
    intro sid sid2 hne
    obtain ⟨k, v⟩ := kv
    have hunf : bsErase ((k, v) :: rest) sid
        = if k ≠ sid then (k, v) :: bsErase rest sid else bsErase rest sid := by
      simp only [bsErase, List.filter_cons]
      by_cases hk : k = sid
      · simp [hk]
      · simp [hk]
    rw [hunf]
    by_cases hk : k = sid
    · rw [if_neg (by simpa using hk)]
      rw [ih sid sid2 hne]
      simp only [bsLookup]
      rw [if_neg (fun h => hne (h.symm.trans hk))]
    · rw [if_pos hk]
      simp only [bsLookup]
      by_cases hk2 : k = sid2
      · rw [if_pos hk2, if_pos hk2]
      · rw [if_neg hk2, if_neg hk2]
        exact ih sid sid2 hne

/-- C10: a belief-state update touches at most the entry of the event's
screen identity; the end-of-stream marker changes nothing, and for a real
event every other screen identity resolves to the same believed page
before and after the update. -/
theorem applyEvent_localized (D : BeliefState) (eo : Option ScreenEvent) (D1 : BeliefState)
    (h : applyEvent D eo = .ok D1) :
    (eo = none → D1 = D)
    ∧ (∀ e sid, eo = some e → sid ≠ e.sid → bsLookup D1 sid = bsLookup D sid) := by
  cases eo with
  | none =>
    simp only [applyEvent, Except.ok.injEq] at h
    exact ⟨fun _ => h.symm, fun e sid he => by simp at he⟩
  | some ev =>
    refine ⟨fun hc => by simp at hc, ?_⟩
    intro e sid he hne
    simp only [Option.some.injEq] at he
    subst he
    cases ev with
    | appeared sid0 n p =>
      simp only [applyEvent, Except.ok.injEq] at h
      subst h
      exact bsLookup_bsSet_ne D sid0 p sid (by simpa [ScreenEvent.sid] using hne)
    | changedContent sid0 n p =>
      simp only [applyEvent, Except.ok.injEq] at h
      subst h
      exact bsLookup_bsSet_ne D sid0 p sid (by simpa [ScreenEvent.sid] using hne)
    | disappeared sid0 n =>
      simp only [applyEvent] at h
      split at h
      · simp only [Except.ok.injEq] at h
        subst h
        exact bsLookup_bsErase_ne D sid0 sid (by simpa [ScreenEvent.sid] using hne)
      · simp at h

/-- C10 witness: an appearance event for screen b leaves the entry of
screen a untouched. -/
theorem applyEvent_localized_witness :
    bsLookup [("a", some (Page.mk "p1")), ("b", some (Page.mk "p2"))] "a"
      = bsLookup [("a", some (Page.mk "p1"))] "a" :=
  (applyEvent_localized [("a", some (Page.mk "p1"))]
      (some (.appeared "b" 1 (some (Page.mk "p2"))))
      [("a", some (Page.mk "p1")), ("b", some (Page.mk "p2"))] rfl).2
    (.appeared "b" 1 (some (Page.mk "p2"))) "a" rfl (by decide)

/-- C6: the closest matches of a screen are the full matches whenever some
full match exists, and the incremental matches otherwise; the two are
never merged. -/
theorem matching_pages_closest_fallback (pages : List (String × Page)) (s : Screen)
    (fm im cm : List Page) (h : matching_pages pages s = .ok (fm, im, cm)) :
    (fm ≠ [] → cm = fm) ∧ (fm = [] → cm = im) := by
  simp only [matching_pages] at h
  split at h
  case h_1 => simp at h
  case h_2 fm0 hfm =>
    split at h
    case h_1 => simp at h
    case h_2 im0 him =>
      simp only [Except.ok.injEq, Prod.mk.injEq] at h
      obtain ⟨h1, h2, h3⟩ := h
      subst h1 h2 h3
      cases fm0 with
      | nil => simp
      | cons p ps => simp

/-- C6 witness: a screen with one full keyref for p1 and one incremental
keyref for p2 has closest matches equal to its full matches. -/
theorem matching_pages_closest_fallback_witness :
    (([Page.mk "p1"] : List Page) ≠ [] → ([Page.mk "p1"] : List Page) = [Page.mk "p1"])
    ∧ (([Page.mk "p1"] : List Page) = [] → ([Page.mk "p1"] : List Page) = [Page.mk "p2"]) :=
  matching_pages_closest_fallback pgs1 screenFullIncr
    [Page.mk "p1"] [Page.mk "p2"] [Page.mk "p1"] rfl

/-- C5: whenever the evaluation returns, the reported number of trials is
exactly the number of annotated frames of the video, whatever the event
stream. -/
theorem evaluate_num_trials_eq_frames (video : Video) (events : List ScreenEvent)
    (s t : Nat) (h : evaluate_event_detector video events = .ok (s, t)) :
    t = video.frames.length := by
  simp only [evaluate_event_detector] at h
  split at h
  case h_1 => simp at h
  case h_2 s0 t0 tr heq =>
    simp only [Except.ok.injEq, Prod.mk.injEq] at h
    obtain ⟨h1, h2⟩ := h
    subst h1 h2
    exact (evaluateFull_ok heq).1

/-- C5 witness: on a one-frame video with an empty event stream the
evaluation returns one trial, the number of frames. -/
theorem evaluate_num_trials_eq_frames_witness :
    evaluate_event_detector videoOneEmptyFrame [] = .ok (1, 1)
    ∧ 1 = videoOneEmptyFrame.frames.length :=
  ⟨rfl, evaluate_num_trials_eq_frames videoOneEmptyFrame [] 1 1 rfl⟩

/-- C8: the evaluation is deterministic; two runs over the same video and
the same ordered event sequence return the same result. -/
theorem evaluate_deterministic (video : Video) (events : List ScreenEvent)
    (r1 r2 : Except EvalError (Nat × Nat))
    (h1 : evaluate_event_detector video events = r1)
    (h2 : evaluate_event_detector video events = r2) : r1 = r2 :=
  h1.symm.trans h2

/-- C8 witness: two runs on the one-frame video with no events both return
one success out of one trial. -/
theorem evaluate_deterministic_witness :
    (Except.ok ((1 : Nat), (1 : Nat)) : Except EvalError (Nat × Nat)) = .ok (1, 1) :=
  evaluate_deterministic videoOneEmptyFrame [] (.ok (1, 1)) (.ok (1, 1)) rfl rfl

/-- C3 counterexample: a disappearance event for a screen id that is not in
the belief state raises a KeyError and aborts the run; it is not a no-op. -/
theorem disappeared_untracked_raises :
    evaluate_event_detector videoOneEmptyFrame [ScreenEvent.disappeared "s" 1]
      = .error .screenKeyError := rfl

/-- C3 amended: processing a disappearance event whose screen id is absent
from the belief state errors with a KeyError instead of being a no-op. -/
theorem applyEvent_disappeared_absent (D : BeliefState) (sid : String) (n : Nat)
    (h : bsLookup D sid = none) :
    applyEvent D (some (.disappeared sid n)) = .error .screenKeyError := by
  simp [applyEvent, h]

/-- C3 witness: deleting screen s from the empty belief state errors. -/
theorem applyEvent_disappeared_absent_witness :
    applyEvent [] (some (.disappeared "s" 1)) = .error .screenKeyError :=
  applyEvent_disappeared_absent [] "s" 1 rfl

/-- C4 counterexample: two belief states with the same set of distinct
non-null values (both empty) give different trial outcomes, and at run
level an appearance event carrying a null believed page turns the sole
trial from a success into a failure; the detected set used for evaluation
is therefore not the set of distinct non-null values. -/
theorem detected_pages_null_counted :
    detectedPagesNonNull [("s", none)] = detectedPagesNonNull ([] : BeliefState)
    ∧ runTrial [] [("s", none)] emptyFrame1 = .ok false
    ∧ runTrial [] [] emptyFrame1 = .ok true
    ∧ evaluate_event_detector videoOneEmptyFrame [eventAppearNull] = .ok (0, 1)
    ∧ evaluate_event_detector videoOneEmptyFrame [] = .ok (1, 1) :=
  ⟨by decide, rfl, rfl, rfl, rfl⟩

/-- C4 amended: the detected set used at a trial is the set of distinct
belief-state values with a stored null included; the trial outcome depends
on the belief state only through that set. -/
theorem runTrial_depends_on_value_set (pages : List (String × Page)) (D1 D2 : BeliefState)
    (f : Frame) (h : detectedPagesOf D1 = detectedPagesOf D2) :
    runTrial pages D1 f = runTrial pages D2 f := by
  unfold runTrial
  rw [h]

theorem foldl_union_init (pages : List (String × Page)) :
    ∀ (screens : List Screen) (acc : Finset Page),
    screens.foldl (fun a s => a ∪ closestOf pages s) acc
      = acc ∪ screens.foldl (fun a s => a ∪ closestOf pages s) ∅ := by
  intro screens
  induction screens with
  | nil => intro acc; simp
  | cons s rest ih =>
    intro acc
    simp only [List.foldl_cons]
    rw [ih (acc ∪ closestOf pages s), ih (∅ ∪ closestOf pages s)]
    rw [Finset.empty_union, Finset.union_assoc]

/-- Characterization of the per-trial pristine-screen loop: the accumulated
union of the closest-match sets, and the flag as the conjunction over all
pristine screens of the corroboration condition. -/
theorem pristineFold_spec (pages : List (String × Page)) (detected : Finset (Option Page)) :
    ∀ (screens : List Screen) (me : Bool) (acc : Finset Page) (me2 : Bool) (acc2 : Finset Page),
    pristineFold pages detected screens me acc = .ok (me2, acc2) →
    acc2 = acc ∪ screens.foldl (fun a s => a ∪ closestOf pages s) ∅
    ∧ (me2 = true ↔ me = true ∧ ∀ s ∈ screens, (closestOf pages s).Nonempty →
        (detected ∩ (closestOf pages s).image some).Nonempty) := by
  intro screens
  induction screens with
  | nil =>
    intro me acc me2 acc2 h
    simp only [pristineFold, Except.ok.injEq, Prod.mk.injEq] at h
    obtain ⟨h1, h2⟩ := h
    subst h1 h2
    simp
  | cons s rest ih =>
    intro me acc me2 acc2 h
    simp only [pristineFold] at h
    split at h
    case h_1 => simp at h
    case h_2 a b cm heq =>
      have hclos : closestOf pages s = cm.toFinset := by
        simp [closestOf, heq]
      obtain ⟨hacc2, hiff2⟩ := ih _ _ me2 acc2 h
      have hfold : (s :: rest).foldl (fun a s2 => a ∪ closestOf pages s2) ∅
          = cm.toFinset ∪ rest.foldl (fun a s2 => a ∪ closestOf pages s2) ∅ := by
        rw [List.foldl_cons, foldl_union_init pages rest, Finset.empty_union, hclos]
      constructor
      · rw [hacc2, hfold, Finset.union_assoc]
      · rw [hiff2]
        simp only [List.forall_mem_cons]
        rw [hclos]
        by_cases hc : cm.toFinset.Nonempty ∧ detected ∩ cm.toFinset.image some = ∅
        · rw [if_pos hc]
          constructor
          · intro hx
            exact absurd hx.1 (by simp)
          · intro hx
            exact absurd hc.2 (Finset.nonempty_iff_ne_empty.mp (hx.2.1 hc.1))
        · rw [if_neg hc]
          have hQS : cm.toFinset.Nonempty → (detected ∩ cm.toFinset.image some).Nonempty := by
            intro hA
            rcases Finset.eq_empty_or_nonempty (detected ∩ cm.toFinset.image some) with he | hn
            · exact absurd ⟨hA, he⟩ hc
            · exact hn
          tauto

theorem runTrial_unfold (pages : List (String × Page)) (D : BeliefState) (f : Frame) :
    runTrial pages D f =
      match pristineFold pages (detectedPagesOf D) (detectScreens [Condition.pristine] true f)
          true ∅ with
      | .error e => .error e
      | .ok (me, pmp) =>
        .ok (me && decide ((detectedPagesOf D \ pmp.image some).card
          ≤ (detectScreens [Condition.windowed, Condition.obstacle] true f).length)) := rfl

/-- C1 amended: a trial succeeds if and only if every pristine screen with
a non-empty closest-match set is corroborated by the set of distinct
belief-state values (a stored null included), and the number of such
values outside the union of the pristine closest-match sets is at most the
number of non-pristine screens. -/
theorem runTrial_success_iff (pages : List (String × Page)) (D : BeliefState) (f : Frame)
    (b : Bool) (h : runTrial pages D f = .ok b) :
    b = true ↔ amendedTrialSuccess pages D f := by
  rw [runTrial_unfold] at h
  cases hpf : pristineFold pages (detectedPagesOf D)
      (detectScreens [Condition.pristine] true f) true ∅ with
  | error e => rw [hpf] at h; simp at h
  | ok res =>
    obtain ⟨me, pmp⟩ := res
    rw [hpf] at h
    simp only [Except.ok.injEq] at h
    subst h
    obtain ⟨hacc, hiff⟩ := pristineFold_spec pages (detectedPagesOf D) _ true ∅ me pmp hpf
    have hpmp : pmp = pristineClosestUnion pages f := by
      rw [hacc, Finset.empty_union]
      rfl
    subst hpmp
    simp only [amendedTrialSuccess]
    constructor
    · intro hb
      rw [Bool.and_eq_true, decide_eq_true_eq] at hb
      exact ⟨(hiff.mp hb.1).2, hb.2⟩
    · intro hx
      rw [Bool.and_eq_true, decide_eq_true_eq]
      exact ⟨hiff.mpr ⟨rfl, hx.1⟩, hx.2⟩

/-- C1 witness: with one pristine screen fully matching p1 and the belief
state holding p1 for screen s, the amended success condition holds at the
successful trial. -/
theorem runTrial_success_iff_witness :
    amendedTrialSuccess pgs1 [("s", some (Page.mk "p1"))] frameP1 :=
  (runTrial_success_iff pgs1 [("s", some (Page.mk "p1"))] frameP1 true rfl).mp rfl

/-- C1 counterexample: during an evaluation run on a screen-less frame, an
appearance event carrying a null believed page makes the sole trial fail,
while the success condition as the claim words it (over non-null pages
only) is satisfied for that frame and belief state. -/
theorem trial_success_condition_null_page :
    evaluateFull videoOneEmptyFrame [eventAppearNull] =
      .ok (0, 1, [TraceAction.applyAct (some eventAppearNull),
                  TraceAction.trialAct [("s", none)] emptyFrame1 false,
                  TraceAction.applyAct none])
    ∧ runTrial [] [("s", none)] emptyFrame1 = .ok false
    ∧ claimedTrialSuccess [] [("s", none)] emptyFrame1 :=
  ⟨rfl, rfl, by unfold claimedTrialSuccess; decide⟩

/-- C4 witness: two belief states with equal value sets produce the same
trial outcome. -/
theorem runTrial_depends_on_value_set_witness :
    runTrial pgs1 [("a", some (Page.mk "p1")), ("b", some (Page.mk "p1"))] emptyFrame1
      = runTrial pgs1 [("b", some (Page.mk "p1"))] emptyFrame1 :=
  runTrial_depends_on_value_set pgs1
    [("a", some (Page.mk "p1")), ("b", some (Page.mk "p1"))]
    [("b", some (Page.mk "p1"))] emptyFrame1 (by decide)

theorem mem_trialedOf {D0 : BeliefState} {f : Frame} {b : Bool} {l : List TraceAction}
    (h : TraceAction.trialAct D0 f b ∈ l) : f ∈ trialedOf l :=
  List.mem_filterMap.mpr ⟨.trialAct D0 f b, h, rfl⟩

theorem evalEvents_single_none (pages : List (String × Page)) (frames : List Frame)
    (D : BeliefState) (s T : Nat) :
    evalEvents pages [none] frames D s T =
      match processFrames pages none frames D s T with
      | .error e => .error e
      | .ok (rem, s1, tr) => .ok (rem, D, s1, tr ++ [TraceAction.applyAct none]) := by
  cases hpf : processFrames pages none frames D s T with
  | error e => simp [evalEvents, hpf]
  | ok res =>
    obtain ⟨rem, s1, tr⟩ := res
    simp [evalEvents, hpf, applyEvent]

/-- Decomposition of a successful full evaluation: the trial total is the
frame count, the trialed frames are exactly the video's frames in order,
the reported successes count the successful trials of the trace, and the
trace splits into the event-driven part followed by the end-of-stream
flush, which trials exactly the remaining frames under the final belief
state. -/
theorem evaluateFull_decomp {video : Video} {events : List ScreenEvent} {s t : Nat}
    {tr : List TraceAction} (h : evaluateFull video events = .ok (s, t, tr)) :
    t = video.frames.length
    ∧ trialedOf tr = video.frames
    ∧ s = successCountOf tr
    ∧ ∃ remFrames finalD s1 preTr flushTr,
        evalEvents video.pages (events.map some) video.frames [] 0 video.frames.length
          = .ok (remFrames, finalD, s1, preTr)
        ∧ processFrames video.pages none remFrames finalD s1 video.frames.length
          = .ok ([], s, flushTr)
        ∧ tr = preTr ++ flushTr ++ [TraceAction.applyAct none]
        ∧ trialedOf flushTr = remFrames
        ∧ (∀ D0 f b, TraceAction.trialAct D0 f b ∈ flushTr → D0 = finalD) := by
  obtain ⟨ht, rem2, D2, hee⟩ := evaluateFull_ok h
  obtain ⟨rem1, D1, s1, tr1, tr2, hA, hB, hAB⟩ :=
    evalEvents_append video.pages (events.map some) [none] video.frames [] 0
      video.frames.length rem2 D2 s tr hee
  rw [evalEvents_single_none] at hB
  split at hB
  case h_1 => simp at hB
  case h_2 remP sP trP hpf =>
    simp only [Except.ok.injEq, Prod.mk.injEq] at hB
    obtain ⟨hB1, hB2, hB3, hB4⟩ := hB
    have hspec := processFrames_spec video.pages none rem1 D1 s1 video.frames.length
      remP sP trP hpf
    have hremP : remP = [] := hspec.2.2.2.2.1 rfl
    have hrem2 : rem2 = [] := hB1 ▸ hremP
    have hconsv := (evalEvents_spec video.pages (events.map some ++ [none]) video.frames [] 0
      video.frames.length rem2 D2 s tr hee)
    refine ⟨ht, ?_, ?_, rem1, D1, s1, tr1, trP, hA, ?_, ?_, ?_, ?_⟩
    · have := hconsv.1
      rw [hrem2, List.append_nil] at this
      exact this
    · have := hconsv.2
      simpa using this
    · rw [hremP, hB3] at hpf
      exact hpf
    · rw [hAB, ← hB4, ← List.append_assoc]
    · have := hspec.1
      rw [hremP, List.append_nil] at this
      exact this
    · intro D0 f b hm
      exact (hspec.2.1 D0 f b hm).1

/-- C7: a successful run trials exactly the annotated frames of the video,
in order and exactly once each; after the real event stream is exhausted,
the synthetic end-of-stream marker flushes and trials every remaining
un-trialed frame under the final belief state. -/
theorem every_frame_trialed_once (video : Video) (events : List ScreenEvent)
    (s t : Nat) (tr : List TraceAction) (h : evaluateFull video events = .ok (s, t, tr)) :
    trialedOf tr = video.frames
    ∧ ∃ remFrames finalD s1 preTr flushTr,
        evalEvents video.pages (events.map some) video.frames [] 0 video.frames.length
          = .ok (remFrames, finalD, s1, preTr)
        ∧ processFrames video.pages none remFrames finalD s1 video.frames.length
          = .ok ([], s, flushTr)
        ∧ tr = preTr ++ flushTr ++ [TraceAction.applyAct none]
        ∧ trialedOf flushTr = remFrames
        ∧ (∀ D0 f b, TraceAction.trialAct D0 f b ∈ flushTr → D0 = finalD) :=
  ⟨(evaluateFull_decomp h).2.1, (evaluateFull_decomp h).2.2.2⟩

/-- C7 witness: on the two-frame video with one event anchored at frame 2,
the trace trials exactly the two frames in order. -/
theorem every_frame_trialed_once_witness :
    trialedOf [TraceAction.trialAct [] ⟨1, []⟩ true,
               TraceAction.applyAct (some eventAppearP1At2),
               TraceAction.trialAct [("s", some (Page.mk "p1"))] ⟨2, []⟩ false,
               TraceAction.applyAct none] = videoTwoEmptyFrames.frames :=
  (every_frame_trialed_once videoTwoEmptyFrames [eventAppearP1At2] 1 2
    [TraceAction.trialAct [] ⟨1, []⟩ true,
     TraceAction.applyAct (some eventAppearP1At2),
     TraceAction.trialAct [("s", some (Page.mk "p1"))] ⟨2, []⟩ false,
     TraceAction.applyAct none] rfl).1

theorem successCountOf_le_trialCountOf : ∀ l : List TraceAction,
    successCountOf l ≤ trialCountOf l := by
  intro l
  induction l with
  | nil => simp
  | cons a rest ih =>
    rw [successCountOf_cons, trialCountOf_cons]
    have : (if isSuccessTrial a then 1 else 0) ≤ (if isTrial a then 1 else 0) := by
      cases a with
      | trialAct D f b => cases b <;> simp [isSuccessTrial, isTrial]
      | applyAct eo => simp [isSuccessTrial, isTrial]
    omega

theorem trialCountOf_eq_length_trialedOf : ∀ l : List TraceAction,
    trialCountOf l = (trialedOf l).length := by
  intro l
  induction l with
  | nil => simp
  | cons a rest ih =>
    rw [trialCountOf_cons]
    cases a with
    | trialAct D f b => simp [isTrial, ih, Nat.add_comm]
    | applyAct eo => simp [isTrial, ih]

theorem successCountOf_take_le (l : List TraceAction) (k : Nat) :
    successCountOf (l.take k) ≤ successCountOf l :=
  List.Sublist.length_le (List.Sublist.filter _ (List.take_sublist k l))

theorem trialCountOf_take_le (l : List TraceAction) (k : Nat) :
    trialCountOf (l.take k) ≤ trialCountOf l :=
  List.Sublist.length_le (List.Sublist.filter _ (List.take_sublist k l))

theorem take_sublist_take_succ (l : List TraceAction) (k : Nat) :
    List.Sublist (l.take k) (l.take (k + 1)) := by
  have : (l.take (k + 1)).take k = l.take k := by
    rw [List.take_take]
    congr 1
    omega
  rw [← this]
  exact List.take_sublist k (l.take (k + 1))

/-- C9: the assertion `num_successes <= num_trials` never fires, and on a
successful run the reported successes count the successful trials of the
trace, both counters grow monotonically along the trace, and after every
prefix of the run the success count is at most the trial count, which is
at most the trial total. -/
theorem success_counter_invariant (video : Video) (events : List ScreenEvent) :
    evaluateFull video events ≠ .error .assertionFailed
    ∧ (∀ s t tr, evaluateFull video events = .ok (s, t, tr) →
        s = successCountOf tr
        ∧ successCountOf tr ≤ t
        ∧ (∀ k, successCountOf (tr.take k) ≤ trialCountOf (tr.take k))
        ∧ (∀ k, trialCountOf (tr.take k) ≤ t)
        ∧ (∀ k, successCountOf (tr.take k) ≤ successCountOf (tr.take (k + 1))
            ∧ trialCountOf (tr.take k) ≤ trialCountOf (tr.take (k + 1)))) := by
  constructor
  · have hb := (evalEvents_bound video.pages (events.map some ++ [none]) video.frames [] 0
      video.frames.length (by omega)).1
    cases hee : evalEvents video.pages (events.map some ++ [none]) video.frames [] 0
        video.frames.length with
    | error e =>
      have he : e ≠ .assertionFailed := fun hc => hb (hc ▸ hee)
      simp only [evaluateFull, hee]
      intro hc
      simp only [Except.error.injEq] at hc
      exact he hc
    | ok res =>
      obtain ⟨rem2, D2, s2, tr2⟩ := res
      simp [evaluateFull, hee]
  · intro s t tr h
    obtain ⟨ht, htrialed, hs, _⟩ := evaluateFull_decomp h
    have htc : trialCountOf tr = t := by
      rw [trialCountOf_eq_length_trialedOf, htrialed, ht]
    refine ⟨hs, ?_, ?_, ?_, ?_⟩
    · rw [← htc]
      exact successCountOf_le_trialCountOf tr
    · intro k
      exact successCountOf_le_trialCountOf (tr.take k)
    · intro k
      rw [← htc]
      exact trialCountOf_take_le tr k
    · intro k
      exact ⟨List.Sublist.length_le (List.Sublist.filter _ (take_sublist_take_succ tr k)),
        List.Sublist.length_le (List.Sublist.filter _ (take_sublist_take_succ tr k))⟩

/-- C9 witness: on the one-frame video with no events the reported success
count equals the count of successful trials of the trace. -/
theorem success_counter_invariant_witness :
    (1 : Nat) = successCountOf [TraceAction.trialAct [] ⟨1, []⟩ true,
                                TraceAction.applyAct none] :=
  ((success_counter_invariant videoOneEmptyFrame []).2 1 1
    [TraceAction.trialAct [] ⟨1, []⟩ true, TraceAction.applyAct none] rfl).1

theorem countApplies_zero : ∀ (l : List TraceAction), countApplies l = 0 →
    ∀ x ∈ l, isApply x = false := by
  intro l h x hx
  by_contra hc
  have hmem : x ∈ l.filter isApply := List.mem_filter.mpr ⟨hx, by simpa using hc⟩
  have hne : l.filter isApply ≠ [] := fun he => by simp [he] at hmem
  exact hne (List.length_eq_zero.mp h)

theorem evalEvents_trial_mem {pages : List (String × Page)} {eos : List (Option ScreenEvent)}
    {frames : List Frame} {D : BeliefState} {s T : Nat} {rem2 : List Frame}
    {D2 : BeliefState} {s2 : Nat} {tr : List TraceAction}
    (h : evalEvents pages eos frames D s T = .ok (rem2, D2, s2, tr)) :
    ∀ D0 f b, TraceAction.trialAct D0 f b ∈ tr → f ∈ frames := by
  intro D0 f b hm
  have hc := (evalEvents_spec pages eos frames D s T rem2 D2 s2 tr h).1
  rw [← hc]
  exact List.mem_append_left rem2 (mem_trialedOf hm)

theorem first_apply_split :
    ∀ (l1 : List TraceAction) (pre : List TraceAction) (a b : TraceAction)
      (l2 post : List TraceAction),
    (∀ x ∈ l1, isApply x = false) → (∀ x ∈ pre, isApply x = false) →
    isApply a = true → isApply b = true →
    l1 ++ a :: l2 = pre ++ b :: post →
    l1 = pre ∧ a = b ∧ l2 = post := by
  intro l1
  induction l1 with
  | nil =>
    intro pre a b l2 post h1 h2 ha hb heq
    cases pre with
    | nil =>
      simp only [List.nil_append] at heq
      injection heq with hab hrest
      exact ⟨rfl, hab, hrest⟩
    | cons y pre1 =>
      simp only [List.nil_append, List.cons_append] at heq
      injection heq with hay hrest
      have hy := h2 y (List.mem_cons_self y pre1)
      rw [← hay, ha] at hy
      exact absurd hy (by simp)
  | cons x l1t ih =>
    intro pre a b l2 post h1 h2 ha hb heq
    cases pre with
    | nil =>
      simp only [List.nil_append, List.cons_append] at heq
      injection heq with hxb hrest
      have hx := h1 x (List.mem_cons_self x l1t)
      rw [hxb, hb] at hx
      exact absurd hx (by simp)
    | cons y pre1 =>
      simp only [List.cons_append] at heq
      injection heq with hxy hrest
      obtain ⟨hl, hab, hpost⟩ := ih pre1 a b l2 post
        (fun z hz => h1 z (List.mem_cons_of_mem x hz))
        (fun z hz => h2 z (List.mem_cons_of_mem y hz)) ha hb hrest
      exact ⟨by rw [hxy, hl], hab, hpost⟩

theorem later_apply_split :
    ∀ (l1 : List TraceAction) (pre : List TraceAction) (a b : TraceAction)
      (l2 post : List TraceAction) (j : Nat),
    (∀ x ∈ l1, isApply x = false) → isApply a = true →
    countApplies pre = j + 1 →
    l1 ++ a :: l2 = pre ++ b :: post →
    ∃ pre2, pre = l1 ++ a :: pre2 ∧ l2 = pre2 ++ b :: post ∧ countApplies pre2 = j := by
  intro l1
  induction l1 with
  | nil =>
    intro pre a b l2 post j h1 ha hcount heq
    cases pre with
    | nil =>
      rw [countApplies_nil] at hcount
      exact absurd hcount (by omega)
    | cons y pre1 =>
      simp only [List.nil_append, List.cons_append] at heq
      injection heq with hay hrest
      subst hay
      refine ⟨pre1, by simp, hrest, ?_⟩
      rw [countApplies_cons] at hcount
      simp [ha] at hcount
      omega
  | cons x l1t ih =>
    intro pre a b l2 post j h1 ha hcount heq
    cases pre with
    | nil =>
      rw [countApplies_nil] at hcount
      exact absurd hcount (by omega)
    | cons y pre1 =>
      simp only [List.cons_append] at heq
      injection heq with hxy hrest
      subst hxy
      have hx := h1 x (List.mem_cons_self x l1t)
      have hcount1 : countApplies pre1 = j + 1 := by
        rw [countApplies_cons] at hcount
        simp [hx] at hcount
        omega
      obtain ⟨pre2, hp, hl, hc⟩ := ih pre1 a b l2 post j
        (fun z hz => h1 z (List.mem_cons_of_mem x hz)) ha hcount1 hrest
      exact ⟨pre2, by rw [List.cons_append, hp], hl, hc⟩

/-- Ordering of trials around belief-state updates inside the outer event
loop, for an event sequence with non-decreasing anchors over a
strictly-increasing frame sequence: every trial before the update of the
i-th event is of a frame strictly below its anchor, and every trial after
it is of a frame at or above its anchor. -/
theorem evalEvents_order (pages : List (String × Page)) :
    ∀ (events : List ScreenEvent) (frames : List Frame) (D : BeliefState) (s T : Nat)
      (rem2 : List Frame) (D2 : BeliefState) (s2 : Nat) (tr : List TraceAction),
    evalEvents pages (events.map some ++ [none]) frames D s T = .ok (rem2, D2, s2, tr) →
    List.Sorted (· ≤ ·) (events.map ScreenEvent.anchor) →
    List.Pairwise (fun f g => f.number < g.number) frames →
    ∀ (i : Nat) (hi : i < events.length) (pre post : List TraceAction),
    tr = pre ++ TraceAction.applyAct (some (events.get ⟨i, hi⟩)) :: post →
    countApplies pre = i →
    (∀ D0 f b, TraceAction.trialAct D0 f b ∈ pre →
        f.number < (events.get ⟨i, hi⟩).anchor)
    ∧ (∀ D0 f b, TraceAction.trialAct D0 f b ∈ post →
        (events.get ⟨i, hi⟩).anchor ≤ f.number) := by
  intro events
  induction events with
  | nil =>
    intro frames D s T rem2 D2 s2 tr h hse hsf i hi
    exact absurd hi (by simp)
  | cons e es ih =>
    intro frames D s T rem2 D2 s2 tr h hse hsf i hi pre post hdec hcount
    simp only [List.map_cons, List.cons_append, evalEvents] at h
    split at h
    case h_1 => simp at h
    case h_2 rem s1 tr1 hpf =>
      split at h
      case h_1 => simp at h
      case h_2 D1 hap =>
        split at h
        case h_1 => simp at h
        case h_2 rem2a D2a s2a tr2 hrec =>
          simp only [Except.ok.injEq, Prod.mk.injEq] at h
          obtain ⟨h1, h2, h3, h4⟩ := h
          subst h1 h2 h3 h4
          have hspec := processFrames_spec pages (some e) frames D s T rem s1 tr1 hpf
          have hnoap : ∀ x ∈ tr1, isApply x = false := hspec.2.2.1
          have htr1lt : ∀ D0 f b, TraceAction.trialAct D0 f b ∈ tr1 → f.number < e.anchor :=
            fun D0 f b hm => (hspec.2.1 D0 f b hm).2 e rfl
          have hremsub : List.Sublist rem frames := by
            have := List.sublist_append_right (trialedOf tr1) rem
            rw [hspec.1] at this
            exact this
          have hsfrem : List.Pairwise (fun f g => f.number < g.number) rem :=
            List.Pairwise.sublist hremsub hsf
          have hremge : ∀ f ∈ rem, e.anchor ≤ f.number := by
            cases rem with
            | nil => intro f hf; simp at hf
            | cons f0 r0 =>
              have hb0 : breakCondition (some e) f0 = true := hspec.2.2.2.2.2 f0 rfl
              simp only [breakCondition, decide_eq_true_eq] at hb0
              intro f hf
              rcases List.mem_cons.mp hf with rfl | hf0
              · exact hb0
              · have := (List.pairwise_cons.mp hsfrem).1 f hf0
                omega
          have hmemtr2 : ∀ D0 f b, TraceAction.trialAct D0 f b ∈ tr2 → f ∈ rem :=
            evalEvents_trial_mem hrec
          have hse2 : List.Sorted (· ≤ ·) (ScreenEvent.anchor e :: es.map ScreenEvent.anchor) := by
            simpa using hse
          cases i with
          | zero =>
            have hget : (e :: es).get ⟨0, hi⟩ = e := rfl
            rw [hget] at hdec ⊢
            have hprenoap := countApplies_zero pre hcount
            obtain ⟨hpre, hab, hpost⟩ := first_apply_split tr1 pre
              (TraceAction.applyAct (some e)) (TraceAction.applyAct (some e)) tr2 post
              hnoap hprenoap rfl rfl hdec
            constructor
            · intro D0 f b hm
              rw [← hpre] at hm
              exact htr1lt D0 f b hm
            · intro D0 f b hm
              rw [← hpost] at hm
              exact hremge f (hmemtr2 D0 f b hm)
          | succ j =>
            have hj : j < es.length := by simpa using hi
            have hget : (e :: es).get ⟨j + 1, hi⟩ = es.get ⟨j, hj⟩ := rfl
            rw [hget] at hdec ⊢
            obtain ⟨pre2, hpre, htr2, hcount2⟩ := later_apply_split tr1 pre
              (TraceAction.applyAct (some e))
              (TraceAction.applyAct (some (es.get ⟨j, hj⟩))) tr2 post j
              hnoap rfl hcount hdec
            have hind := ih rem D1 s1 T rem2a D2a s2a tr2 hrec
              (List.sorted_cons.mp hse2).2 hsfrem j hj pre2 post htr2 hcount2
            constructor
            · intro D0 f b hm
              rw [hpre] at hm
              rcases List.mem_append.mp hm with hm1 | hm2
              · have hlt : f.number < e.anchor := htr1lt D0 f b hm1
                have hle : e.anchor ≤ (es.get ⟨j, hj⟩).anchor :=
                  (List.sorted_cons.mp hse2).1 _
                    (List.mem_map_of_mem ScreenEvent.anchor (es.get_mem j hj))
                omega
              · rcases List.mem_cons.mp hm2 with hm2a | hm2b
                · cases hm2a
                · exact hind.1 D0 f b hm2b
            · exact hind.2

/-- C2: for a successful run over an event stream with non-decreasing
anchoring frame numbers and a strictly frame-number-increasing video,
every trial recorded before the belief-state update of the i-th event is
of a frame strictly below that event's anchor, and every trial recorded
after it is of a frame at or above that anchor. -/
theorem event_update_ordering (video : Video) (events : List ScreenEvent)
    (s t : Nat) (tr : List TraceAction)
    (h : evaluateFull video events = .ok (s, t, tr))
    (hse : List.Sorted (· ≤ ·) (events.map ScreenEvent.anchor))
    (hsf : List.Pairwise (fun f g => f.number < g.number) video.frames)
    (i : Nat) (hi : i < events.length) (pre post : List TraceAction)
    (hdec : tr = pre ++ TraceAction.applyAct (some (events.get ⟨i, hi⟩)) :: post)
    (hcount : countApplies pre = i) :
    (∀ D0 f b, TraceAction.trialAct D0 f b ∈ pre →
        f.number < (events.get ⟨i, hi⟩).anchor)
    ∧ (∀ D0 f b, TraceAction.trialAct D0 f b ∈ post →
        (events.get ⟨i, hi⟩).anchor ≤ f.number) := by
  obtain ⟨ht, rem2, D2, hee⟩ := evaluateFull_ok h
  exact evalEvents_order video.pages events video.frames [] 0 video.frames.length
    rem2 D2 s tr hee hse hsf i hi pre post hdec hcount

/-- C2 witness: on the two-frame video with one event anchored at frame 2,
the frame-1 trial recorded before the update has number below the anchor. -/
theorem event_update_ordering_witness :
    (1 : Nat) < eventAppearP1At2.anchor :=
  (event_update_ordering videoTwoEmptyFrames [eventAppearP1At2] 1 2
    [TraceAction.trialAct [] ⟨1, []⟩ true,
     TraceAction.applyAct (some eventAppearP1At2),
     TraceAction.trialAct [("s", some (Page.mk "p1"))] ⟨2, []⟩ false,
     TraceAction.applyAct none] rfl (by decide) (by decide) 0 (by decide)
    [TraceAction.trialAct [] ⟨1, []⟩ true]
    [TraceAction.trialAct [("s", some (Page.mk "p1"))] ⟨2, []⟩ false,
     TraceAction.applyAct none] rfl rfl).1
    [] ⟨1, []⟩ true (List.mem_singleton.mpr rfl)

end Video699
